import Mathlib

/-!
Verification development for the duplicate-file detection engine of the
photo-organizer repository (`src/duplicate_check.py`).

The Python module is shallowly embedded as follows.

* A directory is a list of `FileEntry` records.  Each entry carries the data the
  Python code can observe about a file: its path, whether `os.path.isfile`
  holds, its byte content (a `List Nat`), its modification time, and three
  flags recording whether the corresponding I/O operations succeed:
  `statOk` (`os.stat` in `get_file_info`), `sampleOk` (opening/reading in
  `calculate_file_hash_sample`), `fullOk` (reading in
  `calculate_file_hash_fast`).  A failed operation makes the Python function
  return `None`; here the hash functions return `Option`.

* MD5 is treated as injective (the spec treats collisions as negligible), so a
  digest is modelled by the exact byte string fed to the hasher:
  `fullDigestInput` for `calculate_file_hash_fast` (the whole content) and
  `sampleDigestInput` for `calculate_file_hash_sample` (the sampled bytes plus
  the decimal representation of the file size, mirroring
  `hasher.update(str(file_size).encode())`).

* Python `defaultdict(list)` grouping with insertion-ordered dict iteration is
  modelled by `groupValues`: keys in first-insertion order, each group holding
  the matching elements in original (append) order.

* `list.sort(key=..., reverse=...)` is Python's stable sort; it is modelled by
  a stable insertion sort `sortStable`.

* The filesystem seen by `remove_duplicates` is a list of `FsFile` records
  (path, mtime, a `statOk` flag for `os.path.getmtime`, and a `removable` flag
  for `os.remove`).  `remove_duplicates` threads this state and returns the
  final filesystem together with the list of removed paths.
-/

/-- One directory entry as observed by the scanner. -/
structure FileEntry where
  path : String
  isFile : Bool
  content : List Nat
  mtime : Int
  statOk : Bool
  sampleOk : Bool
  fullOk : Bool
deriving DecidableEq

/-- Little-endian decimal digits of `n` as ASCII bytes; `fuel` bounds the
recursion (any `fuel ≥ n` gives the digits of `n`). -/
def decDigitsAux : Nat → Nat → List Nat
  | 0, _ => []
  | _ + 1, 0 => []
  | fuel + 1, n + 1 => ((n + 1) % 10 + 48) :: decDigitsAux fuel ((n + 1) / 10)

/-- The ASCII bytes of the decimal representation of `n`, i.e. Python's
`str(n).encode()`. -/
def encodeDecimal (n : Nat) : List Nat :=
  if n = 0 then [48] else (decDigitsAux n n).reverse

/-- Digest input of `calculate_file_hash_fast`: the full byte stream
(MD5 modelled as injective). -/
def fullDigestInput (content : List Nat) : List Nat := content

/-- Digest input of `calculate_file_hash_sample`: the first `sampleSize` bytes
(`f.read(sample_size)` reads at most that many), then, only when
`file_size > sample_size * 2`, the last `sampleSize` bytes
(`f.seek(-sample_size, 2); f.read(sample_size)`), then `str(file_size).encode()`. -/
def sampleDigestInput (sampleSize : Nat) (content : List Nat) : List Nat :=
  let fileSize := content.length
  let startBytes := content.take sampleSize
  let endBytes := if sampleSize * 2 < fileSize then content.drop (fileSize - sampleSize) else []
  startBytes ++ endBytes ++ encodeDecimal fileSize

/-- `calculate_file_hash_fast`: `None` on I/O failure, otherwise the full digest. -/
def calculate_file_hash_fast (e : FileEntry) : Option (List Nat) :=
  if e.fullOk then some (fullDigestInput e.content) else none

/-- `calculate_file_hash_sample`: `None` on I/O failure, otherwise the sample digest. -/
def calculate_file_hash_sample (sampleSize : Nat) (e : FileEntry) : Option (List Nat) :=
  if e.sampleOk then some (sampleDigestInput sampleSize e.content) else none

/-- `get_file_info`: `None` when `os.stat` fails, otherwise the record
(path, size, mtime are all carried by the entry itself). -/
def get_file_info (e : FileEntry) : Option FileEntry :=
  if e.statOk then some e else none

/-- Keys of a list in first-occurrence order (insertion order of a Python dict). -/
def firstSeen {β : Type} [DecidableEq β] : List β → List β
  | [] => []
  | k :: ks => k :: (firstSeen ks).filter (fun x => decide (x ≠ k))

/-- The value lists of a `defaultdict(list)` built by
`for x in xs: d[key x].append(x)`, iterated in insertion order. -/
def groupValues {α β : Type} [DecidableEq β] (key : α → β) (xs : List α) : List (List α) :=
  (firstSeen (xs.map key)).map (fun k => xs.filter (fun x => decide (key x = k)))

/-- Step 1 of `find_duplicate_photos_fast`: the entries that reach
`size_groups` — regular files whose `get_file_info` succeeded and whose size is
at least `min_size`. -/
def inventory (dir : List FileEntry) (minSize : Nat) : List FileEntry :=
  dir.filter (fun e => e.isFile && e.statOk && decide (minSize ≤ e.content.length))

/-- The full-hash confirmation loop: group by `calculate_file_hash_fast`
(dropping files whose hash is `None`, i.e. `fullOk = false`), keep groups with
more than one file. -/
def confirmFull (files : List FileEntry) : List (List FileEntry) :=
  (groupValues (fun e => fullDigestInput e.content) (files.filter (fun e => e.fullOk))).filter
    (fun g => decide (1 < g.length))

/-- The body of the per-size-bucket loop.  With `use_sample_hash` the files are
first grouped by `calculate_file_hash_sample` (default `sample_size = 8192`,
dropping failures), groups of more than one file go to full hashing; otherwise
full hashing runs directly. -/
def processSizeBucket (useSampleHash : Bool) (files : List FileEntry) : List (List FileEntry) :=
  if useSampleHash then
    ((groupValues (fun e => sampleDigestInput 8192 e.content)
        (files.filter (fun e => e.sampleOk))).filter
      (fun g => decide (1 < g.length))).flatMap confirmFull
  else
    confirmFull files

/-- Steps 1–2 of `find_duplicate_photos_fast` on an already-validated
directory: bucket the inventory by size, skip buckets of length 1
(`if len(files) == 1: continue`), process each remaining bucket. -/
def findDuplicateEntries (dir : List FileEntry) (minSize : Nat) (useSampleHash : Bool) :
    List (List FileEntry) :=
  ((groupValues (fun e => e.content.length) (inventory dir minSize)).filter
    (fun g => decide (g.length ≠ 1))).flatMap (processSizeBucket useSampleHash)

/-- `find_duplicate_photos_fast`.  `rootExists` and `rootIsDir` model
`os.path.exists(folder_path)` and `os.path.isdir(folder_path)`; when either
check fails the Python code logs an error and returns `[]`.  The result is the
list of duplicate groups, each a list of file paths. -/
def find_duplicate_photos_fast (rootExists rootIsDir : Bool) (dir : List FileEntry)
    (minSize : Nat) (useSampleHash : Bool) : List (List String) :=
  if rootExists = false then []
  else if rootIsDir = false then []
  else (findDuplicateEntries dir minSize useSampleHash).map (fun g => g.map (fun e => e.path))

/-- The size bucket of `inv` for size `s` (the list `size_groups[s]`). -/
def bucketAt (inv : List FileEntry) (s : Nat) : List FileEntry :=
  inv.filter (fun e => decide (e.content.length = s))

/-- The sample-hash group for digest `sh` inside the size-`s` bucket
(the list `sample_hash_groups[sh]`). -/
def sampleGrpAt (inv : List FileEntry) (s : Nat) (sh : List Nat) : List FileEntry :=
  ((bucketAt inv s).filter (fun e => e.sampleOk)).filter
    (fun e => decide (sampleDigestInput 8192 e.content = sh))

/-- The full-hash group for digest `fh` inside sample group `(s, sh)`
(the list `hash_groups[fh]` in the sample-hash branch). -/
def fullGrpAt (inv : List FileEntry) (s : Nat) (sh fh : List Nat) : List FileEntry :=
  ((sampleGrpAt inv s sh).filter (fun e => e.fullOk)).filter
    (fun e => decide (fullDigestInput e.content = fh))

/-- The full-hash group for digest `fh` inside the size-`s` bucket when the
sample stage is disabled (the list `hash_groups[fh]` in the `else` branch). -/
def fullGrpNS (inv : List FileEntry) (s : Nat) (fh : List Nat) : List FileEntry :=
  ((bucketAt inv s).filter (fun e => e.fullOk)).filter
    (fun e => decide (fullDigestInput e.content = fh))

/-- One file of the filesystem as observed by `remove_duplicates`:
`statOk` tells whether `os.path.getmtime` succeeds, `removable` whether
`os.remove` succeeds. -/
structure FsFile where
  path : String
  mtime : Int
  statOk : Bool
  removable : Bool
deriving DecidableEq

/-- Look a path up in the filesystem (first entry with that path). -/
def lookupFs (fs : List FsFile) (p : String) : Option FsFile :=
  fs.find? (fun f => decide (f.path = p))

/-- `os.path.getmtime`: fails (`none`) when the file is absent or stat fails. -/
def getmtimeFs (fs : List FsFile) (p : String) : Option Int :=
  match lookupFs fs p with
  | none => none
  | some f => if f.statOk then some f.mtime else none

/-- `os.remove`: fails (`none`) when the file is absent or not removable,
otherwise returns the filesystem without that path. -/
def osRemove (fs : List FsFile) (p : String) : Option (List FsFile) :=
  match lookupFs fs p with
  | none => none
  | some f =>
    if f.removable then some (fs.filter (fun g => decide (g.path ≠ p))) else none

/-- Insert `x` into a sorted list, before the first element `y` with
`le x y` — the earlier element wins ties, making the sort stable. -/
def insertSorted {α : Type} (le : α → α → Bool) (x : α) : List α → List α
  | [] => [x]
  | y :: ys => if le x y then x :: y :: ys else y :: insertSorted le x ys

/-- Stable insertion sort, modelling Python's stable `list.sort`. -/
def sortStable {α : Type} (le : α → α → Bool) : List α → List α
  | [] => []
  | x :: xs => insertSorted le x (sortStable le xs)

/-- `files_with_time.sort(key=lambda x: x[1], reverse=not keep_oldest)`:
ascending by mtime when `keep_oldest`, descending otherwise; stable either way. -/
def sortPy (keepOldest : Bool) (l : List (String × Int)) : List (String × Int) :=
  sortStable (fun a b => if keepOldest then decide (a.2 ≤ b.2) else decide (b.2 ≤ a.2)) l

/-- First element of `l` that is `le`-minimal (ties go to the earlier element). -/
def firstMinBy {α : Type} (le : α → α → Bool) : List α → Option α
  | [] => none
  | x :: xs =>
    match firstMinBy le xs with
    | none => some x
    | some y => if le x y then some x else some y

/-- One iteration of the removal loop: try `os.remove`; on success record the
path in `removed_files`, on failure log and continue. -/
def deleteStep (st : List FsFile × List String) (pm : String × Int) : List FsFile × List String :=
  match osRemove st.1 pm.1 with
  | some fs2 => (fs2, st.2 ++ [pm.1])
  | none => st

/-- One iteration of the per-group loop of `remove_duplicates`: skip groups of
at most one path, collect `(path, mtime)` for the paths whose `getmtime`
succeeds, skip if none survive, sort, keep the first and delete the rest. -/
def processGroup (keepOldest : Bool) (st : List FsFile × List String) (group : List String) :
    List FsFile × List String :=
  if group.length ≤ 1 then st
  else
    let fwt := group.filterMap (fun p => (getmtimeFs st.1 p).map (fun m => (p, m)))
    if fwt.isEmpty then st
    else (sortPy keepOldest fwt).tail.foldl deleteStep st

/-- `remove_duplicates`: fold the per-group loop over all duplicate groups,
starting from filesystem `fs0` and an empty `removed_files` list. -/
def remove_duplicates (fs0 : List FsFile) (duplicates : List (List String))
    (keepOldest : Bool) : List FsFile × List String :=
  duplicates.foldl (processGroup keepOldest) (fs0, [])

/-- The file `remove_duplicates` retains for one group, given the filesystem it
sees when the group is processed: the head of the sorted `(path, mtime)` list. -/
def keptOf (keepOldest : Bool) (fs : List FsFile) (group : List String) : Option String :=
  if group.length ≤ 1 then none
  else
    ((sortPy keepOldest
        (group.filterMap (fun p => (getmtimeFs fs p).map (fun m => (p, m))))).head?).map
      Prod.fst

/-- The `space_saved` accumulation of `print_duplicate_report`: for every group
with more than one member, `os.path.getsize(duplicate_group[0])` — the size of
the first member re-statted at reporting time, supplied here as `getsize` —
times `len(duplicate_group) - 1`. -/
def print_duplicate_report_space (getsize : String → Nat) (duplicates : List (List String)) :
    Nat :=
  duplicates.foldl
    (fun acc g => if 1 < g.length then acc + getsize (g.headD "") * (g.length - 1) else acc) 0

/-- Value of a little-endian list of ASCII decimal digits (used to invert
`decDigitsAux`). -/
def decValue : List Nat → Nat
  | [] => 0
  | d :: ds => (d - 48) + 10 * decValue ds


/-- Concrete entries used to exercise the pipeline on explicit inputs. -/
def demoA : FileEntry := ⟨"a", true, [9, 9, 9, 9], 10, true, true, true⟩

/-- Byte-identical twin of `demoA` under a different path. -/
def demoB : FileEntry := ⟨"b", true, [9, 9, 9, 9], 20, true, true, true⟩

/-- Same size as `demoA` but different content. -/
def demoC : FileEntry := ⟨"c", true, [9, 9, 8, 9], 30, true, true, true⟩

/-- Different size from the others. -/
def demoD : FileEntry := ⟨"d", true, [9, 9, 9, 9, 9], 40, true, true, true⟩

/-- An unreadable file: `os.stat` succeeds but both hash reads fail. -/
def demoU : FileEntry := ⟨"u", true, [9, 9, 9, 9], 50, true, false, false⟩

/-- A small demo directory: `demoA`/`demoB` are duplicates, the rest are not. -/
def demoDir : List FileEntry := [demoA, demoB, demoC, demoD]


/-- Demo filesystem for the remover: retention-determinism scenario
`[t1=100, t2=50, t3=50]` for paths A, B, C. -/
def demoFA : FsFile := ⟨"A", 100, true, true⟩

/-- Second demo file, mtime 50, scanned before `demoFC`. -/
def demoFB : FsFile := ⟨"B", 50, true, true⟩

/-- Third demo file, also mtime 50. -/
def demoFC : FsFile := ⟨"C", 50, true, true⟩

/-- The demo filesystem `[A, B, C]`. -/
def demoFs : List FsFile := [demoFA, demoFB, demoFC]

/-- A variant of `demoFC` whose deletion fails (`os.remove` raises). -/
def demoFC2 : FsFile := ⟨"C", 50, true, false⟩

/-- Demo filesystem where deleting C fails. -/
def demoFs2 : List FsFile := [demoFA, demoFB, demoFC2]


/-! ### Lemmas about `firstSeen` and `groupValues` -/

theorem firstSeen_mem {β : Type} [DecidableEq β] (l : List β) (x : β) :
    x ∈ firstSeen l ↔ x ∈ l := by
  induction l with
  | nil => simp [firstSeen]
  | cons k ks ih =>
    simp only [firstSeen, List.mem_cons, List.mem_filter, ih, decide_eq_true_eq]
    by_cases hxk : x = k <;> simp [hxk]

theorem firstSeen_nodup {β : Type} [DecidableEq β] (l : List β) : (firstSeen l).Nodup := by
  induction l with
  | nil => simp [firstSeen]
  | cons k ks ih =>
    refine List.nodup_cons.mpr ⟨?_, ih.filter _⟩
    intro hmem
    have := (List.mem_filter.mp hmem).2
    simp at this

theorem mem_groupValues {α β : Type} [DecidableEq β] (key : α → β) (xs : List α)
    (g : List α) :
    g ∈ groupValues key xs ↔
      ∃ k, k ∈ xs.map key ∧ g = xs.filter (fun x => decide (key x = k)) := by
  simp only [groupValues, List.mem_map, firstSeen_mem]
  constructor
  · rintro ⟨k, hk, he⟩; exact ⟨k, hk, he.symm⟩
  · rintro ⟨k, hk, he⟩; exact ⟨k, hk, he.symm⟩

theorem groupValues_pairwise_disjoint {α β : Type} [DecidableEq β] (key : α → β)
    (xs : List α) :
    (groupValues key xs).Pairwise (fun g1 g2 => ∀ a ∈ g1, a ∉ g2) := by
  unfold groupValues
  rw [List.pairwise_map]
  refine (firstSeen_nodup _).imp ?_
  intro k1 k2 hne a ha1 ha2
  have h1 := (List.mem_filter.mp ha1).2
  have h2 := (List.mem_filter.mp ha2).2
  simp only [decide_eq_true_eq] at h1 h2
  exact hne (h1 ▸ h2)

theorem pairwise_flatMap {β γ : Type} (R : γ → γ → Prop) (f : β → List γ) :
    ∀ l : List β, (∀ b ∈ l, (f b).Pairwise R) →
      l.Pairwise (fun b1 b2 => ∀ x ∈ f b1, ∀ y ∈ f b2, R x y) →
      (l.flatMap f).Pairwise R := by
  intro l
  induction l with
  | nil => intro _ _; simp
  | cons b l ih =>
    intro hall hpw
    rw [List.flatMap_cons, List.pairwise_append]
    rcases List.pairwise_cons.mp hpw with ⟨hb, hl⟩
    refine ⟨hall b (by simp), ih (fun c hc => hall c (by simp [hc])) hl, ?_⟩
    intro x hx y hy
    rcases List.mem_flatMap.mp hy with ⟨b2, hb2, hy2⟩
    exact hb b2 hb2 x hx y hy2

/-! ### Membership characterization of the pipeline -/

theorem mem_fullGrpAt (inv : List FileEntry) (s : Nat) (sh fh : List Nat) (e : FileEntry) :
    e ∈ fullGrpAt inv s sh fh ↔
      e ∈ inv ∧ e.content.length = s ∧ e.sampleOk = true ∧
        sampleDigestInput 8192 e.content = sh ∧ e.fullOk = true ∧
        fullDigestInput e.content = fh := by
  simp only [fullGrpAt, sampleGrpAt, bucketAt, List.mem_filter, decide_eq_true_eq]
  tauto

theorem mem_fullGrpNS (inv : List FileEntry) (s : Nat) (fh : List Nat) (e : FileEntry) :
    e ∈ fullGrpNS inv s fh ↔
      e ∈ inv ∧ e.content.length = s ∧ e.fullOk = true ∧ fullDigestInput e.content = fh := by
  simp only [fullGrpNS, bucketAt, List.mem_filter, decide_eq_true_eq]
  tauto

theorem fullGrpAt_sublist (inv : List FileEntry) (s : Nat) (sh fh : List Nat) :
    (fullGrpAt inv s sh fh).Sublist (sampleGrpAt inv s sh) :=
  (List.filter_sublist _).trans (List.filter_sublist _)

theorem sampleGrpAt_sublist (inv : List FileEntry) (s : Nat) (sh : List Nat) :
    (sampleGrpAt inv s sh).Sublist (bucketAt inv s) :=
  (List.filter_sublist _).trans (List.filter_sublist _)

theorem fullGrpNS_sublist (inv : List FileEntry) (s : Nat) (fh : List Nat) :
    (fullGrpNS inv s fh).Sublist (bucketAt inv s) :=
  (List.filter_sublist _).trans (List.filter_sublist _)

theorem mem_confirmFull (files : List FileEntry) (g : List FileEntry) :
    g ∈ confirmFull files ↔
      ∃ fh, g = (files.filter (fun e => e.fullOk)).filter
          (fun e => decide (fullDigestInput e.content = fh)) ∧ 1 < g.length := by
  unfold confirmFull
  simp only [List.mem_filter, mem_groupValues, decide_eq_true_eq]
  constructor
  · rintro ⟨⟨fh, _, rfl⟩, hlen⟩; exact ⟨fh, rfl, hlen⟩
  · rintro ⟨fh, rfl, hlen⟩
    refine ⟨⟨fh, ?_, rfl⟩, hlen⟩
    obtain ⟨e, he⟩ := List.exists_mem_of_length_pos (Nat.lt_of_le_of_lt (Nat.zero_le 1) hlen)
    have hm := List.mem_filter.mp he
    simp only [decide_eq_true_eq] at hm
    exact hm.2 ▸ List.mem_map_of_mem _ hm.1

theorem mem_processSizeBucket_true (files : List FileEntry) (g : List FileEntry) :
    g ∈ processSizeBucket true files ↔
      ∃ sh fh,
        g = (((files.filter (fun e => e.sampleOk)).filter
              (fun e => decide (sampleDigestInput 8192 e.content = sh))).filter
            (fun e => e.fullOk)).filter (fun e => decide (fullDigestInput e.content = fh)) ∧
        1 < g.length := by
  simp only [processSizeBucket, if_pos, List.mem_flatMap, List.mem_filter,
    mem_groupValues, decide_eq_true_eq]
  constructor
  · rintro ⟨S, ⟨⟨sh, _, rfl⟩, _⟩, hg⟩
    rcases (mem_confirmFull _ _).mp hg with ⟨fh, rfl, hlen⟩
    exact ⟨sh, fh, rfl, hlen⟩
  · rintro ⟨sh, fh, rfl, hlen⟩
    refine ⟨(files.filter (fun e => e.sampleOk)).filter
        (fun e => decide (sampleDigestInput 8192 e.content = sh)), ⟨⟨sh, ?_, rfl⟩, ?_⟩, ?_⟩
    · obtain ⟨e, he⟩ := List.exists_mem_of_length_pos (Nat.lt_of_le_of_lt (Nat.zero_le 1) hlen)
      have h1 := (List.mem_filter.mp he).1
      have h2 := (List.mem_filter.mp h1).1
      have hk := (List.mem_filter.mp h2).2
      simp only [decide_eq_true_eq] at hk
      exact hk ▸ List.mem_map_of_mem _ (List.mem_filter.mp h2).1
    · have hsub : ((((files.filter (fun e => e.sampleOk)).filter
            (fun e => decide (sampleDigestInput 8192 e.content = sh))).filter
          (fun e => e.fullOk)).filter
            (fun e => decide (fullDigestInput e.content = fh))).Sublist
          ((files.filter (fun e => e.sampleOk)).filter
            (fun e => decide (sampleDigestInput 8192 e.content = sh))) :=
        (List.filter_sublist _).trans (List.filter_sublist _)
      exact Nat.lt_of_lt_of_le hlen hsub.length_le
    · exact (mem_confirmFull _ _).mpr ⟨fh, rfl, hlen⟩

theorem mem_findDuplicateEntries_true (dir : List FileEntry) (m : Nat) (g : List FileEntry) :
    g ∈ findDuplicateEntries dir m true ↔
      ∃ s sh fh, g = fullGrpAt (inventory dir m) s sh fh ∧ 1 < g.length := by
  simp only [findDuplicateEntries, List.mem_flatMap, List.mem_filter, mem_groupValues,
    decide_eq_true_eq]
  constructor
  · rintro ⟨B, ⟨⟨s, _, rfl⟩, _⟩, hg⟩
    rcases (mem_processSizeBucket_true _ _).mp hg with ⟨sh, fh, rfl, hlen⟩
    exact ⟨s, sh, fh, rfl, hlen⟩
  · rintro ⟨s, sh, fh, rfl, hlen⟩
    refine ⟨bucketAt (inventory dir m) s, ⟨⟨s, ?_, rfl⟩, ?_⟩, ?_⟩
    · obtain ⟨e, he⟩ := List.exists_mem_of_length_pos (Nat.lt_of_le_of_lt (Nat.zero_le 1) hlen)
      have hm := (mem_fullGrpAt _ _ _ _ _).mp he
      exact hm.2.1 ▸ List.mem_map_of_mem _ hm.1
    · have hsub : (fullGrpAt (inventory dir m) s sh fh).Sublist (bucketAt (inventory dir m) s) :=
        (fullGrpAt_sublist _ _ _ _).trans (sampleGrpAt_sublist _ _ _)
      have := Nat.lt_of_lt_of_le hlen hsub.length_le
      omega
    · exact (mem_processSizeBucket_true _ _).mpr ⟨sh, fh, rfl, hlen⟩

theorem mem_findDuplicateEntries_false (dir : List FileEntry) (m : Nat) (g : List FileEntry) :
    g ∈ findDuplicateEntries dir m false ↔
      ∃ s fh, g = fullGrpNS (inventory dir m) s fh ∧ 1 < g.length := by
  simp only [findDuplicateEntries, List.mem_flatMap, List.mem_filter, mem_groupValues,
    decide_eq_true_eq]
  constructor
  · rintro ⟨B, ⟨⟨s, _, rfl⟩, _⟩, hg⟩
    rcases (mem_confirmFull _ _).mp hg with ⟨fh, rfl, hlen⟩
    exact ⟨s, fh, rfl, hlen⟩
  · rintro ⟨s, fh, rfl, hlen⟩
    refine ⟨bucketAt (inventory dir m) s, ⟨⟨s, ?_, rfl⟩, ?_⟩, ?_⟩
    · obtain ⟨e, he⟩ := List.exists_mem_of_length_pos (Nat.lt_of_le_of_lt (Nat.zero_le 1) hlen)
      have hm := (mem_fullGrpNS _ _ _ _).mp he
      exact hm.2.1 ▸ List.mem_map_of_mem _ hm.1
    · have := Nat.lt_of_lt_of_le hlen (fullGrpNS_sublist (inventory dir m) s fh).length_le
      omega
    · exact (mem_confirmFull _ _).mpr ⟨fh, rfl, hlen⟩

theorem subset_of_mem_confirmFull {S g : List FileEntry} (hg : g ∈ confirmFull S) :
    ∀ e ∈ g, e ∈ S := by
  rcases (mem_confirmFull _ _).mp hg with ⟨fh, rfl, -⟩
  intro e he
  exact (List.mem_filter.mp (List.mem_filter.mp he).1).1

theorem subset_of_mem_processSizeBucket {u : Bool} {B g : List FileEntry}
    (hg : g ∈ processSizeBucket u B) : ∀ e ∈ g, e ∈ B := by
  cases u with
  | false => exact subset_of_mem_confirmFull hg
  | true =>
    rcases (mem_processSizeBucket_true _ _).mp hg with ⟨sh, fh, rfl, -⟩
    intro e he
    exact (List.mem_filter.mp (List.mem_filter.mp
      (List.mem_filter.mp (List.mem_filter.mp he).1).1).1).1

theorem confirmFull_pairwise (S : List FileEntry) :
    (confirmFull S).Pairwise (fun g1 g2 => ∀ e ∈ g1, e ∉ g2) :=
  (groupValues_pairwise_disjoint _ _).sublist (List.filter_sublist _) ..

theorem processSizeBucket_pairwise (u : Bool) (B : List FileEntry) :
    (processSizeBucket u B).Pairwise (fun g1 g2 => ∀ e ∈ g1, e ∉ g2) := by
  cases u with
  | false => exact confirmFull_pairwise B
  | true =>
    simp only [processSizeBucket, if_pos]
    refine pairwise_flatMap _ _ _ (fun S _ => confirmFull_pairwise S) ?_
    refine ((groupValues_pairwise_disjoint _ _).sublist (List.filter_sublist _)).imp ?_
    intro S1 S2 hdisj x hx y hy e hex hey
    exact hdisj e (subset_of_mem_confirmFull hx e hex) (subset_of_mem_confirmFull hy e hey)

/-- Distinct emitted groups never share an entry (for either sample mode). -/
theorem findDuplicateEntries_pairwise (dir : List FileEntry) (m : Nat) (u : Bool) :
    (findDuplicateEntries dir m u).Pairwise (fun g1 g2 => ∀ e ∈ g1, e ∉ g2) := by
  unfold findDuplicateEntries
  refine pairwise_flatMap _ _ _ (fun B _ => processSizeBucket_pairwise u B) ?_
  refine ((groupValues_pairwise_disjoint _ _).sublist (List.filter_sublist _)).imp ?_
  intro B1 B2 hdisj x hx y hy e hex hey
  exact hdisj e (subset_of_mem_processSizeBucket hx e hex)
    (subset_of_mem_processSizeBucket hy e hey)

theorem mem_inventory (dir : List FileEntry) (m : Nat) (e : FileEntry) :
    e ∈ inventory dir m ↔
      e ∈ dir ∧ e.isFile = true ∧ e.statOk = true ∧ m ≤ e.content.length := by
  simp [inventory, List.mem_filter, and_assoc]

theorem mem_inv_of_mem_group {dir : List FileEntry} {m : Nat} {u : Bool}
    {g : List FileEntry} (hg : g ∈ findDuplicateEntries dir m u) :
    ∀ e ∈ g, e ∈ inventory dir m := by
  cases u with
  | true =>
    rcases (mem_findDuplicateEntries_true _ _ _).mp hg with ⟨s, sh, fh, rfl, -⟩
    intro e he
    exact ((mem_fullGrpAt _ _ _ _ _).mp he).1
  | false =>
    rcases (mem_findDuplicateEntries_false _ _ _).mp hg with ⟨s, fh, rfl, -⟩
    intro e he
    exact ((mem_fullGrpNS _ _ _ _).mp he).1

theorem two_le_length_of_mem_group {dir : List FileEntry} {m : Nat} {u : Bool}
    {g : List FileEntry} (hg : g ∈ findDuplicateEntries dir m u) : 2 ≤ g.length := by
  cases u with
  | true =>
    rcases (mem_findDuplicateEntries_true _ _ _).mp hg with ⟨s, sh, fh, -, hlen⟩
    omega
  | false =>
    rcases (mem_findDuplicateEntries_false _ _ _).mp hg with ⟨s, fh, -, hlen⟩
    omega

theorem eq_of_path_eq_of_nodup :
    ∀ l : List FileEntry, (l.map FileEntry.path).Nodup →
      ∀ e1 ∈ l, ∀ e2 ∈ l, e1.path = e2.path → e1 = e2 := by
  intro l
  induction l with
  | nil => intro _ e1 h1; exact absurd h1 (List.not_mem_nil e1)
  | cons x xs ih =>
    intro hnd e1 h1 e2 h2 hp
    rw [List.map_cons, List.nodup_cons] at hnd
    rcases List.mem_cons.mp h1 with h1e | h1t
    · rcases List.mem_cons.mp h2 with h2e | h2t
      · rw [h1e, h2e]
      · exact absurd (by rw [← h1e, hp]; exact List.mem_map_of_mem _ h2t) hnd.1
    · rcases List.mem_cons.mp h2 with h2e | h2t
      · exact absurd (by rw [← h2e, ← hp]; exact List.mem_map_of_mem _ h1t) hnd.1
      · exact ih hnd.2 e1 h1t e2 h2t hp

theorem inventory_paths_nodup {dir : List FileEntry} (hnd : (dir.map FileEntry.path).Nodup)
    (m : Nat) : ((inventory dir m).map FileEntry.path).Nodup :=
  ((List.filter_sublist dir).map FileEntry.path).nodup hnd

theorem mem_sampleGrpAt (inv : List FileEntry) (s : Nat) (sh : List Nat) (e : FileEntry) :
    e ∈ sampleGrpAt inv s sh ↔
      e ∈ inv ∧ e.content.length = s ∧ e.sampleOk = true ∧
        sampleDigestInput 8192 e.content = sh := by
  simp only [sampleGrpAt, bucketAt, List.mem_filter, decide_eq_true_eq]
  tauto

theorem one_lt_length_of_two_mem {α : Type} {l : List α} {a b : α}
    (ha : a ∈ l) (hb : b ∈ l) (hne : a ≠ b) : 1 < l.length := by
  match l, ha with
  | [c], ha =>
    rw [List.mem_singleton] at ha hb
    exact absurd (ha.trans hb.symm) hne
  | c :: d :: t, _ => simp [List.length_cons]

theorem findDuplicateEntries_paths_pairwise (dir : List FileEntry) (m : Nat) (u : Bool)
    (hnd : (dir.map FileEntry.path).Nodup) :
    (find_duplicate_photos_fast true true dir m u).Pairwise
      (fun g1 g2 => ∀ p ∈ g1, p ∉ g2) := by
  have hred : find_duplicate_photos_fast true true dir m u =
      (findDuplicateEntries dir m u).map (fun g => g.map (fun e => e.path)) := rfl
  rw [hred, List.pairwise_map]
  refine (findDuplicateEntries_pairwise dir m u).imp_of_mem ?_
  intro g1 g2 h1 h2 hdisj p hp1 hp2
  rcases List.mem_map.mp hp1 with ⟨e1, he1, rfl⟩
  rcases List.mem_map.mp hp2 with ⟨e2, he2, hpe⟩
  have hi1 := mem_inv_of_mem_group h1 e1 he1
  have hi2 := mem_inv_of_mem_group h2 e2 he2
  have heq : e2 = e1 :=
    eq_of_path_eq_of_nodup _ (inventory_paths_nodup hnd m) e2 hi2 e1 hi1 hpe
  exact hdisj e1 he1 (heq ▸ he2)

/-- **C2.** The duplicate groups returned by `find_duplicate_photos_fast`
partition the candidate files: within a group all members share the full
digest; any file of the directory that survives the inventory, hashes
successfully, and has the same full digest as a member of an emitted group
belongs to that very group (membership is determined solely by full-digest
equality); no file path appears in two different groups; and every emitted
group has at least 2 members. -/
theorem duplicate_groups_partition (dir : List FileEntry) (m : Nat) (u : Bool)
    (hnd : (dir.map FileEntry.path).Nodup) :
    (∀ g ∈ findDuplicateEntries dir m u, ∀ e1 ∈ g, ∀ e2 ∈ g,
        fullDigestInput e1.content = fullDigestInput e2.content)
    ∧ (∀ g ∈ findDuplicateEntries dir m u, ∀ e1 ∈ g, ∀ e2 ∈ dir,
        e2.isFile = true → e2.statOk = true → e2.sampleOk = true → e2.fullOk = true →
        m ≤ e2.content.length →
        fullDigestInput e2.content = fullDigestInput e1.content → e2 ∈ g)
    ∧ (find_duplicate_photos_fast true true dir m u).Pairwise
        (fun g1 g2 => ∀ p ∈ g1, p ∉ g2)
    ∧ (∀ g ∈ find_duplicate_photos_fast true true dir m u, 2 ≤ g.length) := by
  refine ⟨?_, ?_, findDuplicateEntries_paths_pairwise dir m u hnd, ?_⟩
  · intro g hg e1 he1 e2 he2
    cases u with
    | true =>
      rcases (mem_findDuplicateEntries_true _ _ _).mp hg with ⟨s, sh, fh, rfl, -⟩
      have h1 := ((mem_fullGrpAt _ _ _ _ _).mp he1).2.2.2.2.2
      have h2 := ((mem_fullGrpAt _ _ _ _ _).mp he2).2.2.2.2.2
      exact h1.trans h2.symm
    | false =>
      rcases (mem_findDuplicateEntries_false _ _ _).mp hg with ⟨s, fh, rfl, -⟩
      have h1 := ((mem_fullGrpNS _ _ _ _).mp he1).2.2.2
      have h2 := ((mem_fullGrpNS _ _ _ _).mp he2).2.2.2
      exact h1.trans h2.symm
  · intro g hg e1 he1 e2 hd hif hst hsa hfu hm hfd
    have hc : e2.content = e1.content := hfd
    have hinv2 : e2 ∈ inventory dir m := (mem_inventory _ _ _).mpr ⟨hd, hif, hst, hm⟩
    cases u with
    | true =>
      rcases (mem_findDuplicateEntries_true _ _ _).mp hg with ⟨s, sh, fh, rfl, -⟩
      rcases (mem_fullGrpAt _ _ _ _ _).mp he1 with ⟨-, hs, -, hsh, -, hfh⟩
      refine (mem_fullGrpAt _ _ _ _ _).mpr ⟨hinv2, ?_, hsa, ?_, hfu, ?_⟩
      · rw [hc, hs]
      · rw [hc, hsh]
      · show e2.content = fh
        rw [hc]; exact hfh
    | false =>
      rcases (mem_findDuplicateEntries_false _ _ _).mp hg with ⟨s, fh, rfl, -⟩
      rcases (mem_fullGrpNS _ _ _ _).mp he1 with ⟨-, hs, -, hfh⟩
      refine (mem_fullGrpNS _ _ _ _).mpr ⟨hinv2, ?_, hfu, ?_⟩
      · rw [hc, hs]
      · show e2.content = fh
        rw [hc]; exact hfh
  · intro g hg
    have hred : find_duplicate_photos_fast true true dir m u =
        (findDuplicateEntries dir m u).map (fun g => g.map (fun e => e.path)) := rfl
    rw [hred] at hg
    rcases List.mem_map.mp hg with ⟨gE, hgE, rfl⟩
    rw [List.length_map]
    exact two_le_length_of_mem_group hgE

/-- Witness for C2 at a concrete directory with one duplicate pair. -/
theorem duplicate_groups_partition_witness :
    (find_duplicate_photos_fast true true demoDir 1 true).Pairwise
      (fun g1 g2 => ∀ p ∈ g1, p ∉ g2) :=
  (duplicate_groups_partition demoDir 1 true (by decide)).2.2.1

/-- **C3.** Soundness of the sample pre-filter: all members of an emitted
duplicate group share the sample digest (files with different sample digests
never share a group); and two distinct byte-identical files that pass the
inventory and sample successfully receive the same sample digest, land in the
same sample-hash group, and that group has more than one member, so it
proceeds to full-digest confirmation. -/
theorem sample_prefilter_sound (dir : List FileEntry) (m : Nat) :
    (∀ g ∈ findDuplicateEntries dir m true, ∀ e1 ∈ g, ∀ e2 ∈ g,
        sampleDigestInput 8192 e1.content = sampleDigestInput 8192 e2.content)
    ∧ (∀ e1 e2 : FileEntry, e1 ∈ inventory dir m → e2 ∈ inventory dir m →
        e1.sampleOk = true → e2.sampleOk = true → e1.content = e2.content → e1 ≠ e2 →
        e1 ∈ sampleGrpAt (inventory dir m) e1.content.length
            (sampleDigestInput 8192 e1.content) ∧
        e2 ∈ sampleGrpAt (inventory dir m) e1.content.length
            (sampleDigestInput 8192 e1.content) ∧
        1 < (sampleGrpAt (inventory dir m) e1.content.length
            (sampleDigestInput 8192 e1.content)).length) := by
  constructor
  · intro g hg e1 he1 e2 he2
    rcases (mem_findDuplicateEntries_true _ _ _).mp hg with ⟨s, sh, fh, rfl, -⟩
    have h1 := ((mem_fullGrpAt _ _ _ _ _).mp he1).2.2.2.1
    have h2 := ((mem_fullGrpAt _ _ _ _ _).mp he2).2.2.2.1
    exact h1.trans h2.symm
  · intro e1 e2 hi1 hi2 hs1 hs2 hc hne
    have hm1 : e1 ∈ sampleGrpAt (inventory dir m) e1.content.length
        (sampleDigestInput 8192 e1.content) :=
      (mem_sampleGrpAt _ _ _ _).mpr ⟨hi1, rfl, hs1, rfl⟩
    have hm2 : e2 ∈ sampleGrpAt (inventory dir m) e1.content.length
        (sampleDigestInput 8192 e1.content) :=
      (mem_sampleGrpAt _ _ _ _).mpr ⟨hi2, by rw [hc], hs2, by rw [hc]⟩
    exact ⟨hm1, hm2, one_lt_length_of_two_mem hm1 hm2 hne⟩

/-- Witness for C3: the two identical demo files proceed together. -/
theorem sample_prefilter_sound_witness :
    demoA ∈ sampleGrpAt (inventory demoDir 1) demoA.content.length
        (sampleDigestInput 8192 demoA.content) ∧
    demoB ∈ sampleGrpAt (inventory demoDir 1) demoA.content.length
        (sampleDigestInput 8192 demoA.content) ∧
    1 < (sampleGrpAt (inventory demoDir 1) demoA.content.length
        (sampleDigestInput 8192 demoA.content)).length :=
  (sample_prefilter_sound demoDir 1).2 demoA demoB (by decide) (by decide)
    (by decide) (by decide) (by decide) (by decide)

/-- **C1 (counterexample).** On a directory that does contain a duplicate pair,
calling the scan with a nonexistent root returns `[]` — the very same normal
value an empty or duplicate-free directory returns — and a root that is not a
directory does the same.  No error value is surfaced to the caller: the
function's return type has no error channel at all, so the claimed fatal
`NotFoundError`/`NotADirectoryError` cannot be, and is not, raised. -/
theorem scan_invalid_root_counterexample :
    find_duplicate_photos_fast false true demoDir 1 true = [] ∧
    find_duplicate_photos_fast true false demoDir 1 true = [] ∧
    find_duplicate_photos_fast true true demoDir 1 true = [["a", "b"]] ∧
    find_duplicate_photos_fast true true [] 1 true = [] := by
  refine ⟨rfl, rfl, by decide, rfl⟩

/-- **C1 (amended).** If the root path does not exist, or exists but is not a
directory, `find_duplicate_photos_fast` logs an error and immediately returns
the empty list — a normal result indistinguishable from a duplicate-free scan —
instead of raising an error to the caller; no directory entry is examined. -/
theorem scan_invalid_root_returns_empty (rootIsDir : Bool) (dir : List FileEntry)
    (m : Nat) (u : Bool) :
    find_duplicate_photos_fast false rootIsDir dir m u = [] ∧
    find_duplicate_photos_fast true false dir m u = [] :=
  ⟨rfl, rfl⟩

/-! ### The decimal size suffix of the sample digest -/

theorem decValue_decDigitsAux : ∀ fuel n : Nat, n ≤ fuel → decValue (decDigitsAux fuel n) = n := by
  intro fuel
  induction fuel with
  | zero =>
    intro n hn
    have : n = 0 := Nat.le_zero.mp hn
    subst this
    rfl
  | succ f ih =>
    intro n hn
    cases n with
    | zero => rfl
    | succ k =>
      have hdiv : (k + 1) / 10 ≤ f := by
        have := Nat.div_lt_self (Nat.succ_pos k) (by omega : 1 < 10)
        omega
      show ((k + 1) % 10 + 48 - 48) + 10 * decValue (decDigitsAux f ((k + 1) / 10)) = k + 1
      rw [ih _ hdiv]
      omega

theorem encodeDecimal_injective (a b : Nat) (h : encodeDecimal a = encodeDecimal b) : a = b := by
  unfold encodeDecimal at h
  by_cases ha : a = 0 <;> by_cases hb : b = 0
  · omega
  · rw [if_pos ha, if_neg hb] at h
    have hrev : decDigitsAux b b = [48] := by
      rw [← List.reverse_reverse (decDigitsAux b b), ← h]
      rfl
    have := decValue_decDigitsAux b b le_rfl
    rw [hrev] at this
    simp [decValue] at this
    omega
  · rw [if_neg ha, if_pos hb] at h
    have hrev : decDigitsAux a a = [48] := by
      rw [← List.reverse_reverse (decDigitsAux a a), h]
      rfl
    have := decValue_decDigitsAux a a le_rfl
    rw [hrev] at this
    simp [decValue] at this
    omega
  · rw [if_neg ha, if_neg hb] at h
    have hda : decDigitsAux a a = decDigitsAux b b := List.reverse_injective h
    have h1 := decValue_decDigitsAux a a le_rfl
    have h2 := decValue_decDigitsAux b b le_rfl
    rw [hda, h2] at h1
    exact h1.symm

theorem decDigitsAux_length_mono :
    ∀ f1 : Nat, ∀ f2 a b : Nat, a ≤ f1 → b ≤ f2 → a ≤ b →
      (decDigitsAux f1 a).length ≤ (decDigitsAux f2 b).length := by
  intro f1
  induction f1 with
  | zero =>
    intro f2 a b ha _ _
    have : a = 0 := Nat.le_zero.mp ha
    subst this
    simp [decDigitsAux]
  | succ f ih =>
    intro f2 a b ha hb hab
    cases a with
    | zero => simp [decDigitsAux]
    | succ k =>
      cases b with
      | zero => omega
      | succ j =>
        cases f2 with
        | zero => omega
        | succ f2p =>
          show (((k + 1) % 10 + 48) :: decDigitsAux f ((k + 1) / 10)).length ≤
            (((j + 1) % 10 + 48) :: decDigitsAux f2p ((j + 1) / 10)).length
          simp only [List.length_cons, Nat.add_le_add_iff_right]
          refine ih f2p ((k + 1) / 10) ((j + 1) / 10) ?_ ?_ ?_
          · have := Nat.div_lt_self (Nat.succ_pos k) (by omega : 1 < 10)
            omega
          · have := Nat.div_lt_self (Nat.succ_pos j) (by omega : 1 < 10)
            omega
          · exact Nat.div_le_div_right hab

theorem encodeDecimal_length_mono {a b : Nat} (hab : a ≤ b) :
    (encodeDecimal a).length ≤ (encodeDecimal b).length := by
  unfold encodeDecimal
  by_cases ha : a = 0 <;> by_cases hb : b = 0
  · simp [ha, hb]
  · rw [if_pos ha, if_neg hb]
    cases b with
    | zero => omega
    | succ j => simp [decDigitsAux]
  · omega
  · rw [if_neg ha, if_neg hb]
    rw [List.length_reverse, List.length_reverse]
    exact decDigitsAux_length_mono a b a b le_rfl le_rfl hab

theorem length_take_mono_of_le {c1 c2 : List Nat} (N : Nat) (hle : c1.length ≤ c2.length) :
    (c1.take N).length ≤ (c2.take N).length := by
  rw [List.length_take, List.length_take]
  exact min_le_min (le_refl N) hle

theorem sampleDigestInput_length_eq_of_le (N : Nat) (c1 c2 : List Nat)
    (hle : c1.length ≤ c2.length)
    (heq : sampleDigestInput N c1 = sampleDigestInput N c2) :
    c1.length = c2.length := by
  by_contra hne
  have hlt : c1.length < c2.length := Nat.lt_of_le_of_ne hle hne
  have hdmono : (encodeDecimal c1.length).length ≤ (encodeDecimal c2.length).length :=
    encodeDecimal_length_mono hle
  simp only [sampleDigestInput] at heq
  by_cases h1 : N * 2 < c1.length <;> by_cases h2 : N * 2 < c2.length
  · rw [if_pos h1, if_pos h2] at heq
    have hlen := congrArg List.length heq
    simp only [List.length_append] at hlen
    have ht1 : (c1.take N).length = N := by
      rw [List.length_take]; exact min_eq_left (by omega)
    have ht2 : (c2.take N).length = N := by
      rw [List.length_take]; exact min_eq_left (by omega)
    have hd1 : (c1.drop (c1.length - N)).length = N := by rw [List.length_drop]; omega
    have hd2 : (c2.drop (c2.length - N)).length = N := by rw [List.length_drop]; omega
    have hpre : (c1.take N ++ c1.drop (c1.length - N)).length =
        (c2.take N ++ c2.drop (c2.length - N)).length := by
      rw [List.length_append, List.length_append]; omega
    have henc := (List.append_inj heq hpre).2
    exact absurd (encodeDecimal_injective _ _ henc) hne
  · omega
  · rw [if_neg h1, if_pos h2, List.append_nil] at heq
    have hlen := congrArg List.length heq
    simp only [List.length_append] at hlen
    have ht1 : (c1.take N).length ≤ N := by rw [List.length_take]; omega
    have ht2 : (c2.take N).length = N := by
      rw [List.length_take]; exact min_eq_left (by omega)
    have hd2 : (c2.drop (c2.length - N)).length = N := by rw [List.length_drop]; omega
    have hpre : (c1.take N).length = (c2.take N ++ c2.drop (c2.length - N)).length := by
      rw [List.length_append]; omega
    have henc := (List.append_inj heq hpre).2
    exact absurd (encodeDecimal_injective _ _ henc) hne
  · rw [if_neg h1, if_neg h2, List.append_nil, List.append_nil] at heq
    have hlen := congrArg List.length heq
    simp only [List.length_append] at hlen
    have hpre : (c1.take N).length = (c2.take N).length := by
      have := length_take_mono_of_le N hle
      omega
    have henc := (List.append_inj heq hpre).2
    exact absurd (encodeDecimal_injective _ _ henc) hne

/-- **C7.** Two files of different byte sizes never collide in sample-digest
space: since the decimal representation of the raw file size is appended to the
digest input, the complete digest-input byte strings are distinct for any two
contents of different lengths (the hash is modelled injectively by its input). -/
theorem sampleDigestInput_size_injective (sampleSize : Nat) (c1 c2 : List Nat)
    (h : c1.length ≠ c2.length) :
    sampleDigestInput sampleSize c1 ≠ sampleDigestInput sampleSize c2 := by
  intro heq
  rcases Nat.lt_or_ge c1.length c2.length with hlt | hge
  · exact absurd (sampleDigestInput_length_eq_of_le sampleSize c1 c2 (Nat.le_of_lt hlt) heq) h
  · exact absurd (sampleDigestInput_length_eq_of_le sampleSize c2 c1 hge heq.symm) (Ne.symm h)

/-- Witness for C7 at two concrete contents of different sizes. -/
theorem sampleDigestInput_size_injective_witness :
    sampleDigestInput 8192 [1] ≠ sampleDigestInput 8192 [1, 1] :=
  sampleDigestInput_size_injective 8192 [1] [1, 1] (by decide)

/-- **C6 (counterexample).** For `sampleSize = 2`, the contents `[0,0,0]` and
`[0,0,1]` have the same size `3 ≤ 2 × sampleSize` and differ only in their
trailing byte, yet they receive the *same* sample digest: because the code only
reads the trailing bytes when `file_size > sample_size * 2`, a file with
`sampleSize < size ≤ 2 × sampleSize` is sampled by its first `sampleSize`
bytes alone, so not every byte contributes, contrary to the claim. -/
theorem sample_small_file_counterexample :
    sampleDigestInput 2 [0, 0, 0] = sampleDigestInput 2 [0, 0, 1] ∧
    ([0, 0, 0] : List Nat).length = ([0, 0, 1] : List Nat).length ∧
    ([0, 0, 0] : List Nat).length ≤ 2 * 2 ∧
    ([0, 0, 0] : List Nat) ≠ [0, 0, 1] := by
  refine ⟨by decide, by decide, by decide, by decide⟩

/-- **C6 (amended).** The sample digest is derived from the first
`min(sampleSize, size)` bytes, the last `sampleSize` bytes *only when*
`size > 2 × sampleSize`, and the decimal size.  Consequently: (a) for a file of
size at most `sampleSize` the whole content serves as the sample, (b) two
equal-size files of size at most `sampleSize` with equal digests are
byte-identical (any difference, including trailing bytes, changes the digest),
(c) for `size ≤ 2 × sampleSize` only the first `sampleSize` bytes and the size
determine the digest, so differences confined to the bytes after the first
`sampleSize` do not change it, and (d) for `size > 2 × sampleSize` the digest
input is exactly first `sampleSize` bytes, last `sampleSize` bytes, size. -/
theorem sampleDigestInput_regions :
    (∀ (N : Nat) (c : List Nat), c.length ≤ N →
      sampleDigestInput N c = c ++ encodeDecimal c.length)
    ∧ (∀ (N : Nat) (c1 c2 : List Nat), c1.length = c2.length → c1.length ≤ N →
        sampleDigestInput N c1 = sampleDigestInput N c2 → c1 = c2)
    ∧ (∀ (N : Nat) (c1 c2 : List Nat), c1.length = c2.length → c1.length ≤ 2 * N →
        c1.take N = c2.take N → sampleDigestInput N c1 = sampleDigestInput N c2)
    ∧ (∀ (N : Nat) (c : List Nat), 2 * N < c.length →
        sampleDigestInput N c = c.take N ++ c.drop (c.length - N) ++
          encodeDecimal c.length) := by
  have hsmall : ∀ (N : Nat) (c : List Nat), c.length ≤ N →
      sampleDigestInput N c = c ++ encodeDecimal c.length := by
    intro N c hc
    simp only [sampleDigestInput]
    rw [if_neg (by omega), List.take_of_length_le hc, List.append_nil]
  refine ⟨hsmall, ?_, ?_, ?_⟩
  · intro N c1 c2 hlen hle heq
    rw [hsmall N c1 hle, hsmall N c2 (hlen ▸ hle), hlen] at heq
    exact (List.append_inj heq hlen).1
  · intro N c1 c2 hlen hle htake
    simp only [sampleDigestInput]
    rw [if_neg (by omega), if_neg (by omega), htake, hlen]
  · intro N c hc
    simp only [sampleDigestInput]
    rw [if_pos (by omega)]

/-- Witness for C6 (amended), applied at concrete contents: two size-5 files
agreeing on their first 3 bytes share the digest for `sampleSize = 3`, and two
size-2 files are fully determined by their digest for `sampleSize = 4`. -/
theorem sampleDigestInput_regions_witness :
    sampleDigestInput 3 [1, 2, 3, 4, 5] = sampleDigestInput 3 [1, 2, 3, 9, 9] ∧
    sampleDigestInput 4 [7, 7] = [7, 7, 50] :=
  ⟨sampleDigestInput_regions.2.2.1 3 [1, 2, 3, 4, 5] [1, 2, 3, 9, 9]
      (by decide) (by decide) (by decide),
    by rw [sampleDigestInput_regions.1 4 [7, 7] (by decide)]; decide⟩

/-- **C8 (counterexample).** The report's reclaimable-bytes figure re-stats the
filesystem: on the demo directory the duplicate pair `["a", "b"]` has
inventory (scan-time) size 4, yet when the report-time `os.path.getsize`
returns 7 (the file changed after the scan), the reported space saved is
`7 = 7 × (2 − 1)`, not `4 × (2 − 1)` as the inventory-size claim requires. -/
theorem report_space_restats_counterexample :
    find_duplicate_photos_fast true true [demoA, demoB] 1 true = [["a", "b"]] ∧
    demoA.content.length = 4 ∧
    print_duplicate_report_space (fun _ => 7) [["a", "b"]] = 7 ∧
    (7 : Nat) ≠ 4 * (2 - 1) := by
  refine ⟨by decide, by decide, by decide, by decide⟩

/-- **C8 (amended).** For every duplicate group with more than one member the
reclaimable contribution is `getsize(first member) × (groupSize − 1)`, where
`getsize` is the *report-time* `os.path.getsize` of the group's first path
(the filesystem is re-statted during reporting, not read from the inventory),
and the reported total is the sum of these contributions over all groups. -/
theorem report_space_saved (getsize : String → Nat) (duplicates : List (List String)) :
    print_duplicate_report_space getsize duplicates =
      (duplicates.map
        (fun g => if 1 < g.length then getsize (g.headD "") * (g.length - 1) else 0)).sum := by
  unfold print_duplicate_report_space
  suffices h : ∀ a : Nat, duplicates.foldl
      (fun acc g => if 1 < g.length then acc + getsize (g.headD "") * (g.length - 1) else acc) a =
      a + (duplicates.map
        (fun g => if 1 < g.length then getsize (g.headD "") * (g.length - 1) else 0)).sum by
    rw [h 0, Nat.zero_add]
  induction duplicates with
  | nil => intro a; simp
  | cons g t ih =>
    intro a
    simp only [List.foldl_cons, List.map_cons, List.sum_cons]
    by_cases hg : 1 < g.length
    · rw [if_pos hg, if_pos hg, ih, Nat.add_assoc]
    · rw [if_neg hg, if_neg hg, ih, Nat.zero_add]

theorem findDuplicateEntries_nodup (dir : List FileEntry) (m : Nat) (u : Bool) :
    (findDuplicateEntries dir m u).Nodup := by
  refine List.Pairwise.imp_of_mem ?_ (findDuplicateEntries_pairwise dir m u)
  intro g1 g2 h1 _ hdisj heq
  have h2 := two_le_length_of_mem_group h1
  obtain ⟨e, he⟩ := List.exists_mem_of_length_pos (Nat.lt_of_lt_of_le (by omega : (0:Nat) < 2) h2)
  exact hdisj e he (heq ▸ he)

theorem fullGrpNS_eq_fullGrpAt (dir : List FileEntry) (m : Nat)
    (hsa : ∀ e ∈ dir, e.sampleOk = true) (s : Nat) (fh : List Nat) :
    fullGrpAt (inventory dir m) s (sampleDigestInput 8192 fh) fh =
      fullGrpNS (inventory dir m) s fh := by
  unfold fullGrpAt fullGrpNS sampleGrpAt bucketAt
  simp only [List.filter_filter]
  refine List.filter_congr ?_
  intro e he
  have hs : e.sampleOk = true := hsa e ((mem_inventory dir m e).mp he).1
  by_cases hk : e.content = fh
  · simp [hs, hk, fullDigestInput]
  · have hdk : (decide (fullDigestInput e.content = fh)) = false := by
      simp [fullDigestInput, hk]
    simp [hdk]

/-- **C10.** On a directory of readable files (every sample and full hash
succeeds), scanning with `use_sample_hash = true` and with
`use_sample_hash = false` emits exactly the same duplicate groups — the same
group lists, with the same member order inside each group (each group is the
inventory-ordered list of files sharing the full digest) — merely possibly in
a different listing order, as witnessed by a permutation. -/
theorem sample_hash_mode_equivalence (dir : List FileEntry) (m : Nat)
    (hsa : ∀ e ∈ dir, e.sampleOk = true) (_hfu : ∀ e ∈ dir, e.fullOk = true) :
    (∀ g, g ∈ findDuplicateEntries dir m true ↔ g ∈ findDuplicateEntries dir m false)
    ∧ (find_duplicate_photos_fast true true dir m true).Perm
        (find_duplicate_photos_fast true true dir m false) := by
  have hmem : ∀ g, g ∈ findDuplicateEntries dir m true ↔ g ∈ findDuplicateEntries dir m false := by
    intro g
    rw [mem_findDuplicateEntries_true, mem_findDuplicateEntries_false]
    constructor
    · rintro ⟨s, sh, fh, rfl, hlen⟩
      obtain ⟨e, he⟩ :=
        List.exists_mem_of_length_pos (Nat.lt_of_le_of_lt (Nat.zero_le 1) hlen)
      rcases (mem_fullGrpAt _ _ _ _ _).mp he with ⟨-, -, -, hsh, -, hfh⟩
      have hc : e.content = fh := hfh
      have hshv : sh = sampleDigestInput 8192 fh := by rw [← hsh, hc]
      refine ⟨s, fh, ?_, hlen⟩
      rw [hshv]
      exact fullGrpNS_eq_fullGrpAt dir m hsa s fh
    · rintro ⟨s, fh, rfl, hlen⟩
      exact ⟨s, sampleDigestInput 8192 fh, fh,
        (fullGrpNS_eq_fullGrpAt dir m hsa s fh).symm, hlen⟩
  refine ⟨hmem, ?_⟩
  have hperm : (findDuplicateEntries dir m true).Perm (findDuplicateEntries dir m false) := by
    refine List.perm_of_nodup_nodup_toFinset_eq (findDuplicateEntries_nodup dir m true)
      (findDuplicateEntries_nodup dir m false) ?_
    ext g
    simp only [List.mem_toFinset]
    exact hmem g
  have hred1 : find_duplicate_photos_fast true true dir m true =
      (findDuplicateEntries dir m true).map (fun g => g.map (fun e => e.path)) := rfl
  have hred2 : find_duplicate_photos_fast true true dir m false =
      (findDuplicateEntries dir m false).map (fun g => g.map (fun e => e.path)) := rfl
  rw [hred1, hred2]
  exact hperm.map _

/-- Witness for C10 at the demo directory. -/
theorem sample_hash_mode_equivalence_witness :
    (find_duplicate_photos_fast true true demoDir 1 true).Perm
      (find_duplicate_photos_fast true true demoDir 1 false) :=
  (sample_hash_mode_equivalence demoDir 1 (by decide) (by decide)).2

theorem filter_middle_pos {α : Type} (p : α → Bool) (A B : List α) (e : α)
    (he : p e = true) : (A ++ e :: B).filter p = A.filter p ++ e :: B.filter p := by
  simp [List.filter_append, List.filter_cons, he]

theorem filter_middle_neg {α : Type} (p : α → Bool) (A B : List α) (e : α)
    (he : p e = false) : (A ++ e :: B).filter p = A.filter p ++ B.filter p := by
  simp [List.filter_append, List.filter_cons, he]

theorem fullGrpAt_erase_middle (P Q : List FileEntry) (e : FileEntry)
    (hfail : e.sampleOk = false ∨ e.fullOk = false) (s : Nat) (sh fh : List Nat) :
    fullGrpAt (P ++ e :: Q) s sh fh = fullGrpAt (P ++ Q) s sh fh := by
  unfold fullGrpAt sampleGrpAt bucketAt
  simp only [List.filter_filter]
  rw [filter_middle_neg _ P Q e ?_, List.filter_append]
  rcases hfail with h | h <;> simp [h]

theorem fullGrpNS_erase_middle (P Q : List FileEntry) (e : FileEntry)
    (hfail : e.fullOk = false) (s : Nat) (fh : List Nat) :
    fullGrpNS (P ++ e :: Q) s fh = fullGrpNS (P ++ Q) s fh := by
  unfold fullGrpNS bucketAt
  simp only [List.filter_filter]
  rw [filter_middle_neg _ P Q e ?_, List.filter_append]
  simp [hfail]

/-- **C9.** Per-file I/O failures are local.  A file whose `os.stat` fails, or
whose sample hash fails, or whose full hash fails, is simply dropped: the scan
of a directory containing it emits exactly the duplicate groups of the same
directory without it (same memberships; only the listing order of groups can
differ, hence the membership equivalence).  In particular the scan never
aborts, and sibling comparisons in the same size bucket or hash group proceed
unaffected.  The first conjunct covers `use_sample_hash = true` (failure while
sampling or full digesting); the second covers `use_sample_hash = false`. -/
theorem io_failure_local (pre post : List FileEntry) (e : FileEntry) (m : Nat) :
    ((e.statOk = false ∨ e.sampleOk = false ∨ e.fullOk = false) →
      ∀ gp, gp ∈ find_duplicate_photos_fast true true (pre ++ e :: post) m true ↔
        gp ∈ find_duplicate_photos_fast true true (pre ++ post) m true)
    ∧ ((e.statOk = false ∨ e.fullOk = false) →
      ∀ gp, gp ∈ find_duplicate_photos_fast true true (pre ++ e :: post) m false ↔
        gp ∈ find_duplicate_photos_fast true true (pre ++ post) m false) := by
  have hinvsplit : (e.isFile && e.statOk && decide (m ≤ e.content.length)) = true →
      inventory (pre ++ e :: post) m = inventory pre m ++ e :: inventory post m := by
    intro hpass
    exact filter_middle_pos _ pre post e hpass
  have hinv2 : inventory (pre ++ post) m = inventory pre m ++ inventory post m :=
    List.filter_append _ _
  constructor
  · intro hfail gp
    by_cases hpass : (e.isFile && e.statOk && decide (m ≤ e.content.length)) = true
    · have hfail2 : e.sampleOk = false ∨ e.fullOk = false := by
        rcases hfail with h | h | h
        · simp [h] at hpass
        · exact Or.inl h
        · exact Or.inr h
      have hE : ∀ g, g ∈ findDuplicateEntries (pre ++ e :: post) m true ↔
          g ∈ findDuplicateEntries (pre ++ post) m true := by
        intro g
        rw [mem_findDuplicateEntries_true, mem_findDuplicateEntries_true]
        constructor
        · rintro ⟨s, sh, fh, hg, hlen⟩
          refine ⟨s, sh, fh, ?_, hlen⟩
          rw [hg, hinvsplit hpass, fullGrpAt_erase_middle _ _ e hfail2, ← hinv2]
        · rintro ⟨s, sh, fh, hg, hlen⟩
          refine ⟨s, sh, fh, ?_, hlen⟩
          rw [hg, hinv2, ← fullGrpAt_erase_middle _ _ e hfail2, ← hinvsplit hpass]
      constructor
      · intro hmem
        rcases List.mem_map.mp hmem with ⟨gE, hgE, rfl⟩
        exact List.mem_map_of_mem _ ((hE gE).mp hgE)
      · intro hmem
        rcases List.mem_map.mp hmem with ⟨gE, hgE, rfl⟩
        exact List.mem_map_of_mem _ ((hE gE).mpr hgE)
    · have hpf : (e.isFile && e.statOk && decide (m ≤ e.content.length)) = false :=
        Bool.eq_false_iff.mpr hpass
      have hinv : inventory (pre ++ e :: post) m = inventory (pre ++ post) m := by
        unfold inventory
        rw [filter_middle_neg _ pre post e hpf, List.filter_append]
      show gp ∈ (findDuplicateEntries (pre ++ e :: post) m true).map
          (fun g => g.map (fun e => e.path)) ↔ _
      unfold findDuplicateEntries
      rw [hinv]
      exact Iff.rfl
  · intro hfail gp
    by_cases hpass : (e.isFile && e.statOk && decide (m ≤ e.content.length)) = true
    · have hfail2 : e.fullOk = false := by
        rcases hfail with h | h
        · simp [h] at hpass
        · exact h
      have hE : ∀ g, g ∈ findDuplicateEntries (pre ++ e :: post) m false ↔
          g ∈ findDuplicateEntries (pre ++ post) m false := by
        intro g
        rw [mem_findDuplicateEntries_false, mem_findDuplicateEntries_false]
        constructor
        · rintro ⟨s, fh, hg, hlen⟩
          refine ⟨s, fh, ?_, hlen⟩
          rw [hg, hinvsplit hpass, fullGrpNS_erase_middle _ _ e hfail2, ← hinv2]
        · rintro ⟨s, fh, hg, hlen⟩
          refine ⟨s, fh, ?_, hlen⟩
          rw [hg, hinv2, ← fullGrpNS_erase_middle _ _ e hfail2, ← hinvsplit hpass]
      constructor
      · intro hmem
        rcases List.mem_map.mp hmem with ⟨gE, hgE, rfl⟩
        exact List.mem_map_of_mem _ ((hE gE).mp hgE)
      · intro hmem
        rcases List.mem_map.mp hmem with ⟨gE, hgE, rfl⟩
        exact List.mem_map_of_mem _ ((hE gE).mpr hgE)
    · have hpf : (e.isFile && e.statOk && decide (m ≤ e.content.length)) = false :=
        Bool.eq_false_iff.mpr hpass
      have hinv : inventory (pre ++ e :: post) m = inventory (pre ++ post) m := by
        unfold inventory
        rw [filter_middle_neg _ pre post e hpf, List.filter_append]
      show gp ∈ (findDuplicateEntries (pre ++ e :: post) m false).map
          (fun g => g.map (fun e => e.path)) ↔ _
      unfold findDuplicateEntries
      rw [hinv]
      exact Iff.rfl

/-- Witness for C9: the spec's scenario — an unreadable file next to two
identical readable files still yields the duplicate group of the two. -/
theorem io_failure_local_witness :
    ["a", "b"] ∈ find_duplicate_photos_fast true true [demoA, demoB, demoU] 1 true :=
  ((io_failure_local [demoA, demoB] [] demoU 1).1 (by decide) ["a", "b"]).mpr (by decide)

/-! ### Stable sort, retention order, and the remover -/

theorem insertSorted_perm {α : Type} (le : α → α → Bool) (x : α) :
    ∀ l : List α, (insertSorted le x l).Perm (x :: l) := by
  intro l
  induction l with
  | nil => exact List.Perm.refl _
  | cons y ys ih =>
    show (if le x y then x :: y :: ys else y :: insertSorted le x ys).Perm (x :: y :: ys)
    by_cases h : le x y = true
    · rw [if_pos h]
    · rw [if_neg h]
      exact (ih.cons y).trans (List.Perm.swap x y ys)

theorem sortStable_perm {α : Type} (le : α → α → Bool) :
    ∀ l : List α, (sortStable le l).Perm l := by
  intro l
  induction l with
  | nil => exact List.Perm.refl _
  | cons x xs ih => exact (insertSorted_perm le x (sortStable le xs)).trans (ih.cons x)

theorem mem_sortStable {α : Type} {le : α → α → Bool} {l : List α} {a : α} :
    a ∈ sortStable le l ↔ a ∈ l :=
  (sortStable_perm le l).mem_iff

theorem firstMinBy_eq_none {α : Type} (le : α → α → Bool) :
    ∀ l : List α, firstMinBy le l = none ↔ l = [] := by
  intro l
  cases l with
  | nil => simp [firstMinBy]
  | cons x xs =>
    simp only [firstMinBy]
    cases h : firstMinBy le xs with
    | none => simp
    | some y =>
      by_cases hxy : le x y = true
      · simp [hxy]
      · simp [hxy]

theorem sortStable_head {α : Type} (le : α → α → Bool) :
    ∀ l : List α, (sortStable le l).head? = firstMinBy le l := by
  intro l
  induction l with
  | nil => rfl
  | cons x xs ih =>
    show (insertSorted le x (sortStable le xs)).head? = firstMinBy le (x :: xs)
    have hfm : firstMinBy le (x :: xs) =
        match firstMinBy le xs with
        | none => some x
        | some y => if le x y then some x else some y := rfl
    rw [hfm, ← ih]
    cases hs : sortStable le xs with
    | nil => rfl
    | cons y ys =>
      show (if le x y then x :: y :: ys else y :: insertSorted le x ys).head? = _
      by_cases h : le x y = true
      · simp [h]
      · simp [h]

theorem firstMinBy_spec {α : Type} (le : α → α → Bool)
    (htot : ∀ a b, le a b = true ∨ le b a = true)
    (htrans : ∀ a b c, le a b = true → le b c = true → le a c = true) :
    ∀ (l : List α) (r : α), firstMinBy le l = some r →
      ∃ l1 l2, l = l1 ++ r :: l2 ∧ (∀ a ∈ l1, le a r = false) ∧ (∀ a ∈ l2, le r a = true) := by
  intro l
  induction l with
  | nil => intro r h; exact absurd h (by simp [firstMinBy])
  | cons x xs ih =>
    intro r h
    cases hm : firstMinBy le xs with
    | none =>
      have hxs : xs = [] := (firstMinBy_eq_none le xs).mp hm
      subst hxs
      have hr : x = r := by simpa [firstMinBy] using h
      subst hr
      exact ⟨[], [], rfl, by simp, by simp⟩
    | some y =>
      rcases ih y hm with ⟨m1, m2, hxs, hm1, hm2⟩
      cases hxy : le x y with
      | true =>
        have hr : x = r := by simpa [firstMinBy, hm, hxy] using h
        subst hr
        refine ⟨[], xs, rfl, by simp, ?_⟩
        intro a ha
        rw [hxs] at ha
        rcases List.mem_append.mp ha with h1 | h2
        · rcases htot a y with hay | hya
          · exact absurd hay (by rw [hm1 a h1]; simp)
          · exact htrans x y a hxy hya
        · rcases List.mem_cons.mp h2 with rfl | h3
          · exact hxy
          · exact htrans x y a hxy (hm2 a h3)
      | false =>
        have hr : y = r := by simpa [firstMinBy, hm, hxy] using h
        subst hr
        refine ⟨x :: m1, m2, by rw [hxs, List.cons_append], ?_, hm2⟩
        intro a ha
        rcases List.mem_cons.mp ha with rfl | h1
        · exact hxy
        · exact hm1 a h1

/-- **C4.** `remove_duplicates` sorts each group by modification time and keeps
the head of the sorted list.  With `keep_oldest = true` the retained pair `r`
is the first scan-order element attaining the minimum mtime: everything before
it in scan order is strictly newer and everything after it is at least as new
(so mtime ties are broken by scan order, first seen wins).  With
`keep_oldest = false` the retained element is dually the first attaining the
maximum.  On the concrete group with mtimes `[100, 50, 50]` for paths A, B, C,
B is retained and exactly C and A are removed. -/
theorem remover_retention :
    (∀ (fwt : List (String × Int)) (r : String × Int),
        (sortPy true fwt).head? = some r →
        ∃ l1 l2, fwt = l1 ++ r :: l2 ∧ (∀ a ∈ l1, r.2 < a.2) ∧ (∀ a ∈ l2, r.2 ≤ a.2))
    ∧ (∀ (fwt : List (String × Int)) (r : String × Int),
        (sortPy false fwt).head? = some r →
        ∃ l1 l2, fwt = l1 ++ r :: l2 ∧ (∀ a ∈ l1, a.2 < r.2) ∧ (∀ a ∈ l2, a.2 ≤ r.2))
    ∧ remove_duplicates demoFs [["A", "B", "C"]] true = ([demoFB], ["C", "A"]) := by
  refine ⟨?_, ?_, by decide⟩
  · intro fwt r h
    have hsp : sortPy true fwt =
        sortStable (fun a b : String × Int => decide (a.2 ≤ b.2)) fwt := rfl
    rw [hsp, sortStable_head] at h
    have htot : ∀ a b : String × Int,
        decide (a.2 ≤ b.2) = true ∨ decide (b.2 ≤ a.2) = true := by
      intro a b
      rcases le_total a.2 b.2 with hh | hh <;> simp [hh]
    have htrans : ∀ a b c : String × Int, decide (a.2 ≤ b.2) = true →
        decide (b.2 ≤ c.2) = true → decide (a.2 ≤ c.2) = true := by
      intro a b c h1 h2
      simp only [decide_eq_true_eq] at h1 h2 ⊢
      omega
    rcases firstMinBy_spec (fun a b : String × Int => decide (a.2 ≤ b.2)) htot htrans
      fwt r h with ⟨l1, l2, heq, h1, h2⟩
    refine ⟨l1, l2, heq, ?_, ?_⟩
    · intro a ha
      have := h1 a ha
      simp only [decide_eq_false_iff_not] at this
      omega
    · intro a ha
      have := h2 a ha
      simp only [decide_eq_true_eq] at this
      omega
  · intro fwt r h
    have hsp : sortPy false fwt =
        sortStable (fun a b : String × Int => decide (b.2 ≤ a.2)) fwt := rfl
    rw [hsp, sortStable_head] at h
    have htot : ∀ a b : String × Int,
        decide (b.2 ≤ a.2) = true ∨ decide (a.2 ≤ b.2) = true := by
      intro a b
      rcases le_total a.2 b.2 with hh | hh <;> simp [hh]
    have htrans : ∀ a b c : String × Int, decide (b.2 ≤ a.2) = true →
        decide (c.2 ≤ b.2) = true → decide (c.2 ≤ a.2) = true := by
      intro a b c h1 h2
      simp only [decide_eq_true_eq] at h1 h2 ⊢
      omega
    rcases firstMinBy_spec (fun a b : String × Int => decide (b.2 ≤ a.2)) htot htrans
      fwt r h with ⟨l1, l2, heq, h1, h2⟩
    refine ⟨l1, l2, heq, ?_, ?_⟩
    · intro a ha
      have := h1 a ha
      simp only [decide_eq_false_iff_not] at this
      omega
    · intro a ha
      have := h2 a ha
      simp only [decide_eq_true_eq] at this
      omega

/-- Witness for C4: the concrete retention scenario. -/
theorem remover_retention_witness :
    remove_duplicates demoFs [["A", "B", "C"]] true = ([demoFB], ["C", "A"]) :=
  remover_retention.2.2

theorem foldl_inv {σ β : Type} (step : σ → β → σ) (I : σ → Prop) :
    ∀ (l : List β), (∀ st x, x ∈ l → I st → I (step st x)) → ∀ st, I st →
      I (l.foldl step st) := by
  intro l
  induction l with
  | nil => intro _ st h; exact h
  | cons x xs ih =>
    intro hstep st h
    exact ih (fun st2 y hy => hstep st2 y (by simp [hy])) (step st x)
      (hstep st x (by simp) h)

theorem osRemove_eq_some {fs : List FsFile} {p : String} {fs2 : List FsFile}
    (h : osRemove fs p = some fs2) :
    fs2 = fs.filter (fun g => decide (g.path ≠ p)) := by
  unfold osRemove at h
  rcases hl : lookupFs fs p with - | f
  · rw [hl] at h
    exact absurd h (by simp)
  · rw [hl] at h
    have h2 : (if f.removable = true then
        some (fs.filter (fun g => decide (g.path ≠ p))) else none) = some fs2 := h
    by_cases hrm : f.removable = true
    · rw [if_pos hrm] at h2
      exact (Option.some_inj.mp h2).symm
    · rw [if_neg hrm] at h2
      exact absurd h2 (by simp)

theorem lookupFs_filter_ne {q r : String} (hqr : q ≠ r) :
    ∀ fs : List FsFile,
      lookupFs (fs.filter (fun g => decide (g.path ≠ r))) q = lookupFs fs q := by
  intro fs
  induction fs with
  | nil => rfl
  | cons f t ih =>
    by_cases hfr : f.path = r
    · rw [List.filter_cons_of_neg (by simp [hfr])]
      rw [ih]
      unfold lookupFs
      rw [List.find?_cons_of_neg t (by
        simp only [decide_eq_true_eq]
        rw [hfr]
        exact fun hh => hqr hh.symm)]
    · rw [List.filter_cons_of_pos (by simp [hfr])]
      by_cases hfq : f.path = q
      · unfold lookupFs
        rw [List.find?_cons_of_pos _ (by simp [hfq]),
          List.find?_cons_of_pos _ (by simp [hfq])]
      · unfold lookupFs
        rw [List.find?_cons_of_neg _ (by simp [hfq]),
          List.find?_cons_of_neg _ (by simp [hfq])]
        exact ih

theorem deleteStep_lookup {st : List FsFile × List String} {pm : String × Int} {q : String}
    (hq : q ≠ pm.1) : lookupFs (deleteStep st pm).1 q = lookupFs st.1 q := by
  unfold deleteStep
  rcases hrem : osRemove st.1 pm.1 with - | fs2
  · rfl
  · show lookupFs fs2 q = lookupFs st.1 q
    rw [osRemove_eq_some hrem]
    exact lookupFs_filter_ne hq st.1

theorem deleteStep_removed {st : List FsFile × List String} {pm : String × Int} :
    ∀ p ∈ (deleteStep st pm).2, p ∈ st.2 ∨ p = pm.1 := by
  intro p hp
  unfold deleteStep at hp
  rcases hrem : osRemove st.1 pm.1 with - | fs2
  · rw [hrem] at hp
    exact Or.inl hp
  · rw [hrem] at hp
    rcases List.mem_append.mp hp with h | h
    · exact Or.inl h
    · exact Or.inr (List.mem_singleton.mp h)

theorem deleteStep_mem_kept {st : List FsFile × List String} {pm : String × Int}
    {f : FsFile} (hf : f ∈ st.1) (hne : f.path ≠ pm.1) : f ∈ (deleteStep st pm).1 := by
  unfold deleteStep
  rcases hrem : osRemove st.1 pm.1 with - | fs2
  · exact hf
  · show f ∈ fs2
    rw [osRemove_eq_some hrem]
    exact List.mem_filter.mpr ⟨hf, by simp [hne]⟩

theorem foldl_deleteStep_removed (tail : List (String × Int)) :
    ∀ (st : List FsFile × List String) (p : String),
      p ∈ (tail.foldl deleteStep st).2 → p ∈ st.2 ∨ ∃ pm ∈ tail, p = pm.1 := by
  induction tail with
  | nil => intro st p hp; exact Or.inl hp
  | cons pm t ih =>
    intro st p hp
    rcases ih (deleteStep st pm) p hp with h | ⟨pm2, hpm2, hp2⟩
    · rcases deleteStep_removed p h with h2 | h2
      · exact Or.inl h2
      · exact Or.inr ⟨pm, List.mem_cons_self pm t, h2⟩
    · exact Or.inr ⟨pm2, List.mem_cons_of_mem pm hpm2, hp2⟩

theorem foldl_deleteStep_lookup (tail : List (String × Int)) :
    ∀ (st : List FsFile × List String) (q : String), (∀ pm ∈ tail, q ≠ pm.1) →
      lookupFs (tail.foldl deleteStep st).1 q = lookupFs st.1 q := by
  induction tail with
  | nil => intro st q _; rfl
  | cons pm t ih =>
    intro st q hq
    rw [List.foldl_cons,
      ih (deleteStep st pm) q (fun pm2 h2 => hq pm2 (List.mem_cons_of_mem pm h2)),
      deleteStep_lookup (hq pm (List.mem_cons_self pm t))]

theorem fst_mem_of_mem_fwt {fs : List FsFile} {group : List String} {pm : String × Int}
    (h : pm ∈ group.filterMap (fun p => (getmtimeFs fs p).map (fun m => (p, m)))) :
    pm.1 ∈ group := by
  rcases List.mem_filterMap.mp h with ⟨q, hq, hmap⟩
  rcases hm : getmtimeFs fs q with - | mm
  · rw [hm] at hmap
    exact absurd hmap (by simp)
  · rw [hm] at hmap
    rw [← Option.some_inj.mp hmap]
    exact hq

theorem fwt_fst_sublist (fs : List FsFile) :
    ∀ group : List String,
      ((group.filterMap (fun p => (getmtimeFs fs p).map (fun m => (p, m)))).map
        Prod.fst).Sublist group := by
  intro group
  induction group with
  | nil => simp
  | cons q t ih =>
    rcases hm : getmtimeFs fs q with - | mm
    · have heq : (q :: t).filterMap (fun p => (getmtimeFs fs p).map (fun m => (p, m))) =
          t.filterMap (fun p => (getmtimeFs fs p).map (fun m => (p, m))) := by
        simp [List.filterMap_cons, hm]
      rw [heq]
      exact ih.cons q
    · have heq : (q :: t).filterMap (fun p => (getmtimeFs fs p).map (fun m => (p, m))) =
          (q, mm) :: t.filterMap (fun p => (getmtimeFs fs p).map (fun m => (p, m))) := by
        simp [List.filterMap_cons, hm]
      rw [heq, List.map_cons]
      exact ih.cons₂ q

theorem filterMap_congr_mem {α β : Type} (f g : α → Option β) :
    ∀ l : List α, (∀ a ∈ l, f a = g a) → l.filterMap f = l.filterMap g := by
  intro l
  induction l with
  | nil => intro _; rfl
  | cons x xs ih =>
    intro h
    rw [List.filterMap_cons, List.filterMap_cons, h x (List.mem_cons_self x xs),
      ih (fun a ha => h a (List.mem_cons_of_mem x ha))]

theorem processGroup_removed {ko : Bool} {st : List FsFile × List String} {g : List String} :
    ∀ p ∈ (processGroup ko st g).2, p ∈ st.2 ∨ p ∈ g := by
  intro p hp
  simp only [processGroup] at hp
  split at hp
  · exact Or.inl hp
  · split at hp
    · exact Or.inl hp
    · rcases foldl_deleteStep_removed _ _ _ hp with h | ⟨pm, hpm, hppm⟩
      · exact Or.inl h
      · have h2 : pm ∈ sortPy ko
            (g.filterMap (fun p => (getmtimeFs st.1 p).map (fun m => (p, m)))) :=
          List.mem_of_mem_tail hpm
        unfold sortPy at h2
        have h3 := mem_sortStable.mp h2
        rw [hppm]
        exact Or.inr (fst_mem_of_mem_fwt h3)

theorem processGroup_mem_kept {ko : Bool} {st : List FsFile × List String} {g : List String}
    {f : FsFile} (hf : f ∈ st.1) (hp : f.path ∉ g) : f ∈ (processGroup ko st g).1 := by
  simp only [processGroup]
  split
  · exact hf
  · split
    · exact hf
    · refine foldl_inv deleteStep (fun st2 => f ∈ st2.1) _ ?_ st hf
      intro st2 pm hpm hin
      refine deleteStep_mem_kept hin ?_
      intro heq
      apply hp
      rw [heq]
      have h2 : pm ∈ sortPy ko
          (g.filterMap (fun p => (getmtimeFs st.1 p).map (fun m => (p, m)))) :=
        List.mem_of_mem_tail hpm
      unfold sortPy at h2
      exact fst_mem_of_mem_fwt (mem_sortStable.mp h2)

theorem processGroup_lookup {ko : Bool} {st : List FsFile × List String} {g : List String}
    {q : String} (hq : q ∉ g) :
    lookupFs (processGroup ko st g).1 q = lookupFs st.1 q := by
  simp only [processGroup]
  split
  · rfl
  · split
    · rfl
    · refine foldl_deleteStep_lookup _ st q ?_
      intro pm hpm heq
      apply hq
      rw [heq]
      have h2 : pm ∈ sortPy ko
          (g.filterMap (fun p => (getmtimeFs st.1 p).map (fun m => (p, m)))) :=
        List.mem_of_mem_tail hpm
      unfold sortPy at h2
      exact fst_mem_of_mem_fwt (mem_sortStable.mp h2)

theorem keptOf_mem {ko : Bool} {fs : List FsFile} {g : List String} {k : String}
    (h : keptOf ko fs g = some k) : k ∈ g := by
  unfold keptOf at h
  split at h
  · exact absurd h (by simp)
  · rcases hsl : sortPy ko (g.filterMap (fun p => (getmtimeFs fs p).map (fun m => (p, m))))
      with - | ⟨r, tail⟩
    · rw [hsl] at h
      exact absurd h (by simp)
    · rw [hsl] at h
      have hrk : r.1 = k := by simpa using h
      have hr : r ∈ sortPy ko
          (g.filterMap (fun p => (getmtimeFs fs p).map (fun m => (p, m)))) := by
        rw [hsl]
        exact List.mem_cons_self r tail
      unfold sortPy at hr
      rw [← hrk]
      exact fst_mem_of_mem_fwt (mem_sortStable.mp hr)

theorem keptOf_congr {ko : Bool} {fs1 fs2 : List FsFile} {g : List String}
    (h : ∀ q ∈ g, getmtimeFs fs1 q = getmtimeFs fs2 q) :
    keptOf ko fs1 g = keptOf ko fs2 g := by
  unfold keptOf
  have hfwt : g.filterMap (fun p => (getmtimeFs fs1 p).map (fun m => (p, m))) =
      g.filterMap (fun p => (getmtimeFs fs2 p).map (fun m => (p, m))) :=
    filterMap_congr_mem _ _ g (fun a ha => by rw [h a ha])
  rw [hfwt]

theorem processGroup_kept {ko : Bool} {st : List FsFile × List String} {g : List String}
    (hnd : g.Nodup) {k : String} (hk : keptOf ko st.1 g = some k) :
    (k ∈ (processGroup ko st g).2 → k ∈ st.2) ∧
    (∀ f ∈ st.1, f.path = k → f ∈ (processGroup ko st g).1) := by
  by_cases hlen : g.length ≤ 1
  · unfold keptOf at hk
    rw [if_pos hlen] at hk
    exact absurd hk (by simp)
  · unfold keptOf at hk
    rw [if_neg hlen] at hk
    by_cases hemp : (g.filterMap
        (fun p => (getmtimeFs st.1 p).map (fun m => (p, m)))).isEmpty = true
    · rw [List.isEmpty_iff.mp hemp] at hk
      exact absurd hk (by simp [sortPy, sortStable])
    · rcases hsl : sortPy ko (g.filterMap (fun p => (getmtimeFs st.1 p).map (fun m => (p, m))))
        with - | ⟨r, tail⟩
      · rw [hsl] at hk
        exact absurd hk (by simp)
      · rw [hsl] at hk
        have hrk : r.1 = k := by simpa using hk
        have hnds : ((r :: tail).map Prod.fst).Nodup := by
          rw [← hsl]
          have hperm : (sortPy ko (g.filterMap
              (fun p => (getmtimeFs st.1 p).map (fun m => (p, m))))).Perm
              (g.filterMap (fun p => (getmtimeFs st.1 p).map (fun m => (p, m)))) := by
            unfold sortPy
            exact sortStable_perm _ _
          exact (hperm.map Prod.fst).nodup_iff.mpr ((fwt_fst_sublist st.1 g).nodup hnd)
        have hktail : k ∉ tail.map Prod.fst := by
          rw [List.map_cons, List.nodup_cons, hrk] at hnds
          exact hnds.1
        constructor
        · intro hkin
          simp only [processGroup] at hkin
          rw [if_neg hlen, if_neg hemp, hsl] at hkin
          simp only [List.tail_cons] at hkin
          rcases foldl_deleteStep_removed _ _ _ hkin with h | ⟨pm, hpm, hkpm⟩
          · exact h
          · exact absurd (by rw [hkpm]; exact List.mem_map_of_mem Prod.fst hpm) hktail
        · intro f hf hfp
          simp only [processGroup]
          rw [if_neg hlen, if_neg hemp, hsl]
          simp only [List.tail_cons]
          refine foldl_inv deleteStep (fun st2 => f ∈ st2.1) tail ?_ st hf
          intro st2 pm hpm hin
          refine deleteStep_mem_kept hin ?_
          intro heq
          exact hktail (by rw [← hfp, heq]; exact List.mem_map_of_mem Prod.fst hpm)

theorem foldl_processGroup_removed (ko : Bool) :
    ∀ (gs : List (List String)) (st : List FsFile × List String) (p : String),
      p ∈ (gs.foldl (processGroup ko) st).2 → p ∈ st.2 ∨ ∃ g ∈ gs, p ∈ g := by
  intro gs
  induction gs with
  | nil => intro st p hp; exact Or.inl hp
  | cons g0 t ih =>
    intro st p hp
    rcases ih (processGroup ko st g0) p hp with h | ⟨g2, hg2, hp2⟩
    · rcases processGroup_removed p h with h2 | h2
      · exact Or.inl h2
      · exact Or.inr ⟨g0, List.mem_cons_self g0 t, h2⟩
    · exact Or.inr ⟨g2, List.mem_cons_of_mem g0 hg2, hp2⟩

theorem foldl_processGroup_mem_kept (ko : Bool) :
    ∀ (gs : List (List String)) (st : List FsFile × List String) (f : FsFile),
      f ∈ st.1 → (∀ g ∈ gs, f.path ∉ g) → f ∈ (gs.foldl (processGroup ko) st).1 := by
  intro gs
  induction gs with
  | nil => intro st f hf _; exact hf
  | cons g0 t ih =>
    intro st f hf hng
    exact ih (processGroup ko st g0) f
      (processGroup_mem_kept hf (hng g0 (List.mem_cons_self g0 t)))
      (fun g2 hg2 => hng g2 (List.mem_cons_of_mem g0 hg2))

theorem deleteStep_frame_pres (fs0 : List FsFile) :
    ∀ (st : List FsFile × List String) (pm : String × Int),
      (∀ f ∈ fs0, f.path ∉ st.2 → f ∈ st.1) →
      (∀ f ∈ fs0, f.path ∉ (deleteStep st pm).2 → f ∈ (deleteStep st pm).1) := by
  intro st pm hI f hf hnp
  unfold deleteStep at hnp ⊢
  rcases hrem : osRemove st.1 pm.1 with - | fs2
  · rw [hrem] at hnp
    exact hI f hf hnp
  · rw [hrem] at hnp
    have hnp2 : f.path ∉ st.2 ++ [pm.1] := hnp
    have h1 : f.path ∉ st.2 := fun hh => hnp2 (List.mem_append.mpr (Or.inl hh))
    have h2 : f.path ≠ pm.1 := fun hh =>
      hnp2 (List.mem_append.mpr (Or.inr (by rw [hh]; exact List.mem_singleton_self pm.1)))
    show f ∈ fs2
    rw [osRemove_eq_some hrem]
    exact List.mem_filter.mpr ⟨hI f hf h1, by simp [h2]⟩

theorem processGroup_frame_pres (fs0 : List FsFile) (ko : Bool) :
    ∀ (st : List FsFile × List String) (g : List String),
      (∀ f ∈ fs0, f.path ∉ st.2 → f ∈ st.1) →
      (∀ f ∈ fs0, f.path ∉ (processGroup ko st g).2 → f ∈ (processGroup ko st g).1) := by
  intro st g hI
  simp only [processGroup]
  split
  · exact hI
  · split
    · exact hI
    · exact foldl_inv deleteStep
        (fun st2 => ∀ f ∈ fs0, f.path ∉ st2.2 → f ∈ st2.1) _
        (fun st2 pm _ h => deleteStep_frame_pres fs0 st2 pm h) st hI

theorem foldl_processGroup_kept (ko : Bool) :
    ∀ (gs : List (List String)) (st : List FsFile × List String),
      gs.Pairwise (fun g1 g2 => ∀ p ∈ g1, p ∉ g2) → (∀ g ∈ gs, g.Nodup) →
      ∀ g ∈ gs, ∀ k, keptOf ko st.1 g = some k →
        (k ∈ (gs.foldl (processGroup ko) st).2 → k ∈ st.2) ∧
        (∀ f ∈ st.1, f.path = k → f ∈ (gs.foldl (processGroup ko) st).1) := by
  intro gs
  induction gs with
  | nil => intro st _ _ g hg; exact absurd hg (List.not_mem_nil g)
  | cons g0 t ih =>
    intro st hpw hnds g hg k hk
    rcases List.pairwise_cons.mp hpw with ⟨hd0, hpw2⟩
    rcases List.mem_cons.mp hg with heq | hgs
    · subst heq
      have hpk := processGroup_kept (hnds g (List.mem_cons_self g t)) hk
      have hkg : k ∈ g := keptOf_mem hk
      constructor
      · intro hin
        rw [List.foldl_cons] at hin
        rcases foldl_processGroup_removed ko t (processGroup ko st g) k hin
          with h | ⟨g2, hg2, hkg2⟩
        · exact hpk.1 h
        · exact absurd hkg2 (hd0 g2 hg2 k hkg)
      · intro f hf hfp
        rw [List.foldl_cons]
        refine foldl_processGroup_mem_kept ko t _ f (hpk.2 f hf hfp) ?_
        intro g2 hg2
        rw [hfp]
        exact hd0 g2 hg2 k hkg
    · have hkg : k ∈ g := keptOf_mem hk
      have hk0 : k ∉ g0 := fun hk0 => hd0 g hgs k hk0 hkg
      have hstab : keptOf ko (processGroup ko st g0).1 g = keptOf ko st.1 g := by
        refine keptOf_congr ?_
        intro q hq
        have hq0 : q ∉ g0 := fun hq0 => hd0 g hgs q hq0 hq
        unfold getmtimeFs
        rw [processGroup_lookup hq0]
      have ih2 := ih (processGroup ko st g0) hpw2
        (fun g2 hg2 => hnds g2 (List.mem_cons_of_mem g0 hg2)) g hgs k
        (by rw [hstab]; exact hk)
      constructor
      · intro hin
        rw [List.foldl_cons] at hin
        rcases processGroup_removed k (ih2.1 hin) with h | h
        · exact h
        · exact absurd h hk0
      · intro f hf hfp
        rw [List.foldl_cons]
        exact ih2.2 f (processGroup_mem_kept hf (by rw [hfp]; exact hk0)) hfp

/-- **C5.** Safety of the removal plan, for duplicate groups that are pairwise
disjoint with no repeated path inside a group (the shape `find_duplicate_photos_fast`
produces): (1) a file whose path never enters the removed list is still present
in the final filesystem, even when some deletions fail; (2) only group members
are ever passed to deletion; (3) the retained file of each group — selected
once, from the filesystem state before any of that group's deletions — is never
deleted: its path is not in the removed list and the file survives in the final
filesystem. -/
theorem removal_plan_safe (fs0 : List FsFile) (groups : List (List String)) (ko : Bool)
    (hdisj : groups.Pairwise (fun g1 g2 => ∀ p ∈ g1, p ∉ g2))
    (hnd : ∀ g ∈ groups, g.Nodup) :
    (∀ f ∈ fs0, f.path ∉ (remove_duplicates fs0 groups ko).2 →
      f ∈ (remove_duplicates fs0 groups ko).1)
    ∧ (∀ p ∈ (remove_duplicates fs0 groups ko).2, ∃ g ∈ groups, p ∈ g)
    ∧ (∀ g ∈ groups, ∀ k, keptOf ko fs0 g = some k →
        k ∉ (remove_duplicates fs0 groups ko).2 ∧
        (∀ f ∈ fs0, f.path = k → f ∈ (remove_duplicates fs0 groups ko).1)) := by
  refine ⟨?_, ?_, ?_⟩
  · unfold remove_duplicates
    exact foldl_inv (processGroup ko)
      (fun st => ∀ f ∈ fs0, f.path ∉ st.2 → f ∈ st.1) groups
      (fun st g _ h => processGroup_frame_pres fs0 ko st g h) (fs0, [])
      (fun f hf _ => hf)
  · intro p hp
    rcases foldl_processGroup_removed ko groups (fs0, []) p hp with h | h
    · exact absurd h (List.not_mem_nil p)
    · exact h
  · intro g hg k hk
    have h := foldl_processGroup_kept ko groups (fs0, []) hdisj hnd g hg k hk
    exact ⟨fun hin => absurd (h.1 hin) (List.not_mem_nil k), h.2⟩

/-- Witness for C5: with the group `["A", "B", "C"]` over a filesystem where
deleting C fails, the retained file B is neither removed nor lost. -/
theorem removal_plan_safe_witness :
    "B" ∉ (remove_duplicates demoFs2 [["A", "B", "C"]] true).2 ∧
    demoFB ∈ (remove_duplicates demoFs2 [["A", "B", "C"]] true).1 := by
  have h := (removal_plan_safe demoFs2 [["A", "B", "C"]] true (by decide)
    (by decide)).2.2 ["A", "B", "C"] (by decide) "B" (by decide)
  exact ⟨h.1, h.2 demoFB (by decide) rfl⟩
